import Mathlib

/-!
Verification of the quiz application core: scoring, session lifecycle,
leaderboard aggregation and gamification (streak and badges).

Modelling conventions for the shallow embedding of the TypeScript source:
* JS strings are Lean `String`; `String.prototype.trim`/`toLowerCase` are
  modelled by `jsTrim`/`jsToLower` below (ASCII case folding, the common
  whitespace characters), used uniformly on the code side and the spec side.
* `Array.prototype.sort` is stable (ECMAScript 2019); a stable sort is
  extensionally determined by the comparator and the input order, so it is
  modelled by `List.insertionSort` with the relation "comparator ≤ 0".
* Timestamps (`Date.now()`) are milliseconds as `Int`.  Local-midnight
  truncation (`setHours(0,0,0,0)`) is modelled for a fixed-offset timezone
  without DST as flooring to a multiple of 86400000 ms, and
  `setDate(getDate() - 1)` as subtracting 86400000 ms.
* React component state relevant to one quiz attempt is gathered in the
  `Session` structure; the 1-second interval callback together with the
  effect that auto-submits at zero is the step function `tick`.
* Persistence (`addDoc`) is external; the produced `ResultData` is recorded
  in the session instead (field `currentResult`).
-/

/-! ## JS string model -/

def isWsChar (c : Char) : Bool :=
  c = ' ' || c = '\t' || c = '\n' || c = '\r'

def jsTrim (s : String) : String :=
  ⟨((s.data.dropWhile isWsChar).reverse.dropWhile isWsChar).reverse⟩

def jsToLowerChar (c : Char) : Char :=
  if 'A' ≤ c && c ≤ 'Z' then Char.ofNat (c.toNat + 32) else c

def jsToLower (s : String) : String :=
  ⟨s.data.map jsToLowerChar⟩

/-- Value of a decimal digit character. -/
def digitVal (c : Char) : Nat := c.toNat - '0'.toNat

/-- Evaluate a most-significant-first list of decimal digit characters. -/
def evalDigits : List Char → Nat
  | [] => 0
  | c :: cs => digitVal c * 10 ^ cs.length + evalDigits cs

/-! ## Data model (the TypeScript interfaces) -/

structure Question where
  text : String
  options : List String
  correctIndex : Int
  explanation : Option String
  deriving Repr, DecidableEq

structure Quiz where
  id : String
  title : String
  questions : List Question
  durationMinutes : Option Nat
  createdAt : Int
  deriving Repr, DecidableEq

structure Result where
  id : String
  quizId : String
  studentName : String
  score : Int
  total : Int
  date : Int
  deriving Repr, DecidableEq

/-! ## ScoringEngine (the loop inside submitQuiz)

`score = 0; questions.forEach((q, i) => { if (answers[i] === q.correctIndex) score++; })`
-/

def scoreQuiz (qs : List Question) (ans : List Int) : Nat :=
  ((List.range qs.length).filter
    (fun i => ans.get? i == (qs.get? i).map Question.correctIndex)).length

/-! ## LeaderboardAggregator (getLeaderboard) and top-3 ranking (isTop3) -/

/-- The dedup key built in the source:
backtick-template of trimmed lowercased name, a dash, and the score. -/
def resultKey (r : Result) : String :=
  jsToLower (jsTrim r.studentName) ++ "-" ++ toString r.score

/-- The dedup key as the specification words it: the pair of the
normalized (trimmed, lowercased) student name and the score. -/
def pairKey (r : Result) : String × Int :=
  (jsToLower (jsTrim r.studentName), r.score)

/-- The forEach/Set loop that keeps the first occurrence of each key. -/
def dedupFirstBy {α κ : Type} [DecidableEq κ] (key : α → κ) : List α → List κ → List α
  | [], _ => []
  | x :: xs, seen =>
      if key x ∈ seen then dedupFirstBy key xs seen
      else x :: dedupFirstBy key xs (key x :: seen)

/-- Comparator `(a, b) => a.date - b.date`. -/
def dateLe (a b : Result) : Prop := a.date ≤ b.date

instance : DecidableRel dateLe :=
  fun a b => inferInstanceAs (Decidable (a.date ≤ b.date))

instance : IsTotal Result dateLe := ⟨fun a b => le_total a.date b.date⟩

instance : IsTrans Result dateLe := ⟨fun _ _ _ h1 h2 => le_trans h1 h2⟩

/-- Comparator `(a, b) => b.score !== a.score ? b.score - a.score : a.date - b.date`. -/
def leaderLe (a b : Result) : Prop :=
  (a.score = b.score ∧ a.date ≤ b.date) ∨ (a.score ≠ b.score ∧ b.score < a.score)

instance : DecidableRel leaderLe :=
  fun a b => inferInstanceAs
    (Decidable ((a.score = b.score ∧ a.date ≤ b.date) ∨ (a.score ≠ b.score ∧ b.score < a.score)))

/-- Comparator `(a, b) => b.score - a.score` (the final sort inside isTop3). -/
def scoreDescLe (a b : Result) : Prop := b.score ≤ a.score

instance : DecidableRel scoreDescLe :=
  fun a b => inferInstanceAs (Decidable (b.score ≤ a.score))

def getLeaderboard (results : List Result) (quizId : String) : List Result :=
  List.insertionSort leaderLe
    (dedupFirstBy resultKey
      (List.insertionSort dateLe (results.filter (fun r => r.quizId == quizId))) [])

/-- The ranked sequence computed inside isTop3: filter by quiz, sort by date
ascending, dedup by key, then a stable sort by score descending only. -/
def top3Ranking (quizId : String) (allResults : List Result) : List Result :=
  List.insertionSort scoreDescLe
    (dedupFirstBy resultKey
      (List.insertionSort dateLe (allResults.filter (fun r => r.quizId == quizId))) [])

/-- `Array.prototype.findIndex`, with `none` for the -1 result. -/
def jsFindIndex {α : Type} (p : α → Bool) : List α → Option Nat
  | [] => none
  | x :: xs => if p x then some 0 else (jsFindIndex p xs).map (· + 1)

def isTop3 (studentName : String) (quizId : String) (allResults : List Result) : Bool :=
  match jsFindIndex (fun r => jsToLower r.studentName == jsToLower studentName)
      (top3Ranking quizId allResults) with
  | some i => decide (i < 3)
  | none => false

def hasGrammarMaster (studentName : String) (allResults : List Result) : Bool :=
  allResults.any (fun r =>
    jsToLower r.studentName == jsToLower studentName && r.score == r.total)

/-- The expression computing the top-3 badge on the student dashboard. -/
def hasAnyTop3 (studentName : String) (allResults : List Result) : Bool :=
  allResults.any (fun r =>
    jsToLower r.studentName == jsToLower studentName && isTop3 studentName r.quizId allResults)

/-! ## GamificationEvaluator: calculateStreak -/

def msPerDay : Int := 86400000

/-- Local-midnight truncation of a millisecond timestamp (fixed-offset model). -/
def midnightMs (t : Int) : Int := msPerDay * Int.fdiv t msPerDay

/-- Comparator `(a, b) => b - a` on day timestamps. -/
def dayDesc (a b : Int) : Prop := b ≤ a

instance : DecidableRel dayDesc :=
  fun a b => inferInstanceAs (Decidable (b ≤ a))

instance : IsTotal Int dayDesc := ⟨fun a b => le_total b a⟩

instance : IsTrans Int dayDesc := ⟨fun _ _ _ h1 h2 => le_trans h2 h1⟩

/-- `Math.ceil(Math.abs(a - b) / 86400000)` on millisecond timestamps. -/
def diffDaysCeil (a b : Int) : Nat := ((a - b).natAbs + 86399999) / 86400000

/-- The distinct attempt days of a student, most recent first:
`Array.from(new Set(myResults.map(midnight))).sort((a,b) => b - a)`. -/
def streakDays (studentName : String) (allResults : List Result) : List Int :=
  List.insertionSort dayDesc
    (dedupFirstBy (fun d => d)
      ((allResults.filter (fun r => jsToLower r.studentName == jsToLower studentName)).map
        (fun r => midnightMs r.date)) [])

/-- The extension loop of calculateStreak: streak starts at 1 and grows while
the ceiled day difference of adjacent entries is exactly 1. -/
def streakLoop : List Int → Nat
  | a :: b :: rest => if diffDaysCeil a b = 1 then 1 + streakLoop (b :: rest) else 1
  | _ => 1

def calculateStreak (studentName : String) (allResults : List Result) (now : Int) : Nat :=
  if studentName = "" then 0
  else
    match streakDays studentName allResults with
    | [] => 0
    | d0 :: rest =>
        if d0 ≠ midnightMs now ∧ d0 ≠ midnightMs now - msPerDay then 0
        else streakLoop (d0 :: rest)

/-! ## SessionController (component state, startQuiz, submitQuiz, timer effect) -/

inductive AppView
  | landing
  | studentDash
  | studentQuiz
  | studentResult
  deriving Repr, DecidableEq

/-- The Result object assembled by submitQuiz before persistence
(the store-generated id is external and omitted). -/
structure ResultData where
  quizId : String
  studentName : String
  score : Nat
  total : Nat
  date : Int
  deriving Repr, DecidableEq

structure Session where
  studentName : String
  activeQuiz : Option Quiz
  answers : List Int
  timeLeft : Nat
  view : AppView
  currentResult : Option ResultData
  deriving Repr, DecidableEq

inductive QuizError
  | validationError (msg : String)
  deriving Repr, DecidableEq

/-- JS `x || d` on an optional number: the default fires on `undefined` and on 0. -/
def jsOrDefault (v : Option Nat) (d : Nat) : Nat :=
  match v with
  | none => d
  | some x => if x = 0 then d else x

def startQuiz (quiz : Quiz) (s : Session) : Except QuizError Session :=
  if jsTrim s.studentName = "" then
    .error (.validationError "Please enter your name first.")
  else
    .ok { s with
      activeQuiz := some quiz,
      answers := List.replicate quiz.questions.length (-1),
      timeLeft := jsOrDefault quiz.durationMinutes 10 * 60,
      view := .studentQuiz }

def submitQuiz (now : Int) (s : Session) : Session :=
  match s.activeQuiz with
  | none => s
  | some quiz =>
      { s with
        currentResult := some
          { quizId := quiz.id
            studentName := s.studentName
            score := scoreQuiz quiz.questions s.answers
            total := quiz.questions.length
            date := now }
        view := .studentResult }

def selectAnswer (questionIndex : Nat) (optionIndex : Int) (s : Session) : Session :=
  { s with answers := s.answers.set questionIndex optionIndex }

/-- One firing of the 1-second interval, together with the effect re-run on the
updated state: while time remains it decrements (clamped at 0), and as soon as
the remaining time is 0 in the quiz view the effect auto-submits. -/
def tick (now : Int) (s : Session) : Session :=
  if s.view = .studentQuiz then
    if 0 < s.timeLeft then
      let t := if s.timeLeft ≤ 1 then 0 else s.timeLeft - 1
      let s' := { s with timeLeft := t }
      if t = 0 then submitQuiz now s' else s'
    else submitQuiz now s
  else s

def tickN (now : Int) : Nat → Session → Session
  | 0, s => s
  | n + 1, s => tickN now n (tick now s)

/-! ## Specification-side definitions (worded from the spec, for comparison) -/

/-- The leaderboard as the specification words it: restrict to the quiz, sort
ascending by submission timestamp, keep the earliest occurrence of each
(normalized name, score) pair, then order descending by score with ties broken
by ascending timestamp. -/
def leaderboardSpec (results : List Result) (quizId : String) : List Result :=
  List.insertionSort leaderLe
    (dedupFirstBy pairKey
      (List.insertionSort dateLe (results.filter (fun r => r.quizId == quizId))) [])

/-- Number of adjacent day pairs that differ by exactly one calendar day,
stopping at the first gap (specification wording of the streak extension). -/
def consecRun : List Int → Nat
  | a :: b :: rest => if a - b = msPerDay then 1 + consecRun (b :: rest) else 0
  | _ => 0

/-- The streak as the claim words it: 0 when the most recent attempt day is
neither today nor yesterday, else 1 plus the consecutive run. -/
def streakSpec (studentName : String) (allResults : List Result) (now : Int) : Nat :=
  match streakDays studentName allResults with
  | [] => 0
  | d0 :: rest =>
      if d0 = midnightMs now ∨ d0 = midnightMs now - msPerDay
      then 1 + consecRun (d0 :: rest) else 0

/-- The top-3 badge as the claim words it: some attempted quiz has an entry of
the student, matched by trimmed lowercased name, within the first 3 ranks. -/
def top3BadgeSpecTrim (studentName : String) (allResults : List Result) : Bool :=
  allResults.any (fun r =>
    jsToLower (jsTrim r.studentName) == jsToLower (jsTrim studentName) &&
    ((getLeaderboard allResults r.quizId).take 3).any
      (fun e => jsToLower (jsTrim e.studentName) == jsToLower (jsTrim studentName)))

/-! ## Concrete data for witnesses and counterexamples -/

def qArith : Question := ⟨"2+2?", ["3", "4", "5", "6"], 1, none⟩

def qGeo : Question := ⟨"capital?", ["Delhi", "Pune", "Agra", "Goa"], 0, none⟩

def quizA : Quiz := ⟨"quiz-a", "Arithmetic", [qArith, qGeo], some 1, 0⟩

def quizZeroDur : Quiz := ⟨"quiz-z", "ZeroDur", [qArith], some 0, 0⟩

def sess0 : Session := ⟨"Asha", none, [], 0, .studentDash, none⟩

def sessWs : Session := ⟨" \t ", none, [], 0, .studentDash, none⟩

def rAsha1 : Result := ⟨"r1", "quiz-a", "Asha", 2, 2, 1000⟩

def rAsha2 : Result := ⟨"r2", "quiz-a", " asha ", 2, 2, 5000⟩

def rBela : Result := ⟨"r3", "quiz-a", "Bela", 1, 2, 2000⟩

def rSpacedAlice : Result := ⟨"r4", "quiz-a", " alice", 5, 5, 0⟩

def rEmptyName : Result := ⟨"r5", "quiz-a", "", 1, 1, 0⟩

def sessC1 : Session := ⟨"Asha", some quizA, [1, -1], 30, .studentQuiz, none⟩

def rN0 : Result := ⟨"a", "q", "N", 1, 1, 86400000 * 10 + 5⟩

def rN1 : Result := ⟨"b", "q", "n", 1, 1, 86400000 * 9 + 7⟩

def rN2 : Result := ⟨"c", "q", "N", 1, 1, 86400000 * 8 + 2⟩

def streakNow : Int := 86400000 * 10 + 999

/-! ## Helper lemmas: the dedup loop -/

theorem dedupFirstBy_sublist {α κ : Type} [DecidableEq κ] (key : α → κ) :
    ∀ (l : List α) (seen : List κ), (dedupFirstBy key l seen).Sublist l := by
  intro l
  induction l with
  | nil => intro seen; exact List.Sublist.refl []
  | cons x xs ih =>
      intro seen
      unfold dedupFirstBy
      by_cases hx : key x ∈ seen
      · rw [if_pos hx]; exact (ih seen).cons x
      · rw [if_neg hx]; exact (ih (key x :: seen)).cons₂ x

theorem dedupFirstBy_not_seen {α κ : Type} [DecidableEq κ] (key : α → κ) :
    ∀ (l : List α) (seen : List κ), ∀ a ∈ dedupFirstBy key l seen, key a ∉ seen := by
  intro l
  induction l with
  | nil => intro seen a ha; cases ha
  | cons x xs ih =>
      intro seen a ha
      unfold dedupFirstBy at ha
      by_cases hx : key x ∈ seen
      · rw [if_pos hx] at ha; exact ih seen a ha
      · rw [if_neg hx] at ha
        rcases List.mem_cons.mp ha with rfl | ha'
        · exact hx
        · intro hmem
          exact ih (key x :: seen) a ha' (List.mem_cons_of_mem _ hmem)

theorem dedupFirstBy_pairwise {α κ : Type} [DecidableEq κ] (key : α → κ) :
    ∀ (l : List α) (seen : List κ),
      (dedupFirstBy key l seen).Pairwise (fun a b => key a ≠ key b) := by
  intro l
  induction l with
  | nil => intro seen; exact List.Pairwise.nil
  | cons x xs ih =>
      intro seen
      unfold dedupFirstBy
      by_cases hx : key x ∈ seen
      · rw [if_pos hx]; exact ih seen
      · rw [if_neg hx]
        refine List.pairwise_cons.mpr ⟨?_, ih (key x :: seen)⟩
        intro b hb hkey
        exact dedupFirstBy_not_seen key xs (key x :: seen) b hb
          (hkey ▸ List.mem_cons_self (key x) seen)

theorem dedupFirstBy_congr {α κ1 κ2 : Type} [DecidableEq κ1] [DecidableEq κ2]
    (k1 : α → κ1) (k2 : α → κ2) :
    ∀ (l : List α) (seen1 : List κ1) (seen2 : List κ2),
      (∀ a ∈ l, ∀ b ∈ l, (k1 a = k1 b ↔ k2 a = k2 b)) →
      (∀ a ∈ l, (k1 a ∈ seen1 ↔ k2 a ∈ seen2)) →
      dedupFirstBy k1 l seen1 = dedupFirstBy k2 l seen2 := by
  intro l
  induction l with
  | nil => intros; rfl
  | cons x xs ih =>
      intro seen1 seen2 hpair hseen
      unfold dedupFirstBy
      by_cases hx : k1 x ∈ seen1
      · rw [if_pos hx, if_pos ((hseen x (List.mem_cons_self x xs)).mp hx)]
        exact ih seen1 seen2
          (fun a ha b hb => hpair a (List.mem_cons_of_mem x ha) b (List.mem_cons_of_mem x hb))
          (fun a ha => hseen a (List.mem_cons_of_mem x ha))
      · rw [if_neg hx, if_neg (fun h => hx ((hseen x (List.mem_cons_self x xs)).mpr h))]
        congr 1
        refine ih (k1 x :: seen1) (k2 x :: seen2)
          (fun a ha b hb => hpair a (List.mem_cons_of_mem x ha) b (List.mem_cons_of_mem x hb))
          (fun a ha => ?_)
        simp only [List.mem_cons]
        exact or_congr
          (hpair a (List.mem_cons_of_mem x ha) x (List.mem_cons_self x xs))
          (hseen a (List.mem_cons_of_mem x ha))

/-- On a list sorted ascending by date, the survivor of each key is the
earliest: every kept record is no later than any record of the same key. -/
theorem dedupFirstBy_earliest {κ : Type} [DecidableEq κ] (key : Result → κ) :
    ∀ (S : List Result) (seen : List κ), S.Pairwise dateLe →
      ∀ r ∈ dedupFirstBy key S seen, ∀ rp ∈ S, key rp = key r → r.date ≤ rp.date := by
  intro S
  induction S with
  | nil => intro seen _ r hr; cases hr
  | cons x xs ih =>
      intro seen hs r hr rp hrp hkey
      have hx : ∀ b ∈ xs, dateLe x b := (List.pairwise_cons.mp hs).1
      have hxs : xs.Pairwise dateLe := (List.pairwise_cons.mp hs).2
      unfold dedupFirstBy at hr
      by_cases hmem : key x ∈ seen
      · rw [if_pos hmem] at hr
        rcases List.mem_cons.mp hrp with rfl | hrp'
        · exact absurd (hkey ▸ hmem) (dedupFirstBy_not_seen key xs seen r hr)
        · exact ih seen hxs r hr rp hrp' hkey
      · rw [if_neg hmem] at hr
        rcases List.mem_cons.mp hr with rfl | hr'
        · rcases List.mem_cons.mp hrp with rfl | hrp'
          · exact le_refl _
          · exact hx rp hrp'
        · rcases List.mem_cons.mp hrp with rfl | hrp'
          · exact absurd (hkey ▸ List.mem_cons_self (key rp) seen)
              (dedupFirstBy_not_seen key xs (key rp :: seen) r hr')
          · exact ih (key x :: seen) hxs r hr' rp hrp' hkey

/-! ## Helper lemmas: stable sorts -/

theorem orderedInsert_congr {α : Type} (r1 r2 : α → α → Prop)
    [DecidableRel r1] [DecidableRel r2] (a : α) :
    ∀ l : List α, (∀ b ∈ l, (r1 a b ↔ r2 a b)) →
      List.orderedInsert r1 a l = List.orderedInsert r2 a l := by
  intro l
  induction l with
  | nil => intro _; rfl
  | cons b t ih =>
      intro h
      simp only [List.orderedInsert]
      by_cases hb : r1 a b
      · rw [if_pos hb, if_pos ((h b (List.mem_cons_self b t)).mp hb)]
      · rw [if_neg hb, if_neg (fun h2 => hb ((h b (List.mem_cons_self b t)).mpr h2))]
        rw [ih (fun c hc => h c (List.mem_cons_of_mem b hc))]

/-- On a list that is already sorted ascending by date, the stable sort by
score descending alone coincides with the stable sort by score descending
with ties broken by ascending date. -/
theorem insertionSort_scoreDesc_eq :
    ∀ l : List Result, l.Pairwise dateLe →
      List.insertionSort scoreDescLe l = List.insertionSort leaderLe l := by
  intro l
  induction l with
  | nil => intro _; rfl
  | cons a t ih =>
      intro hl
      have hpt : t.Pairwise dateLe := (List.pairwise_cons.mp hl).2
      have hha : ∀ b ∈ t, dateLe a b := (List.pairwise_cons.mp hl).1
      simp only [List.insertionSort]
      rw [ih hpt]
      apply orderedInsert_congr
      intro b hb
      have hbt : b ∈ t := (List.perm_insertionSort leaderLe t).mem_iff.mp hb
      have hd : a.date ≤ b.date := hha b hbt
      unfold scoreDescLe leaderLe
      constructor
      · intro hle
        by_cases hsc : a.score = b.score
        · exact Or.inl ⟨hsc, hd⟩
        · exact Or.inr ⟨hsc, lt_of_le_of_ne hle (fun h => hsc h.symm)⟩
      · rintro (⟨hsc, _⟩ | ⟨_, hlt⟩)
        · omega
        · omega

/-! ## Helper lemmas: decimal representation of scores (the dedup key string) -/

theorem digitChar_ne_dash (m : Nat) : Nat.digitChar m ≠ '-' := by
  by_cases h : m < 16
  · exact (by decide : ∀ k, k < 16 → Nat.digitChar k ≠ '-') m h
  · have e : Nat.digitChar m = '*' := by
      unfold Nat.digitChar
      rw [if_neg (by omega : ¬ m = 0), if_neg (by omega : ¬ m = 1),
        if_neg (by omega : ¬ m = 2), if_neg (by omega : ¬ m = 3),
        if_neg (by omega : ¬ m = 4), if_neg (by omega : ¬ m = 5),
        if_neg (by omega : ¬ m = 6), if_neg (by omega : ¬ m = 7),
        if_neg (by omega : ¬ m = 8), if_neg (by omega : ¬ m = 9),
        if_neg (by omega : ¬ m = 10), if_neg (by omega : ¬ m = 11),
        if_neg (by omega : ¬ m = 12), if_neg (by omega : ¬ m = 13),
        if_neg (by omega : ¬ m = 14), if_neg (by omega : ¬ m = 15)]
    rw [e]
    decide

theorem toDigitsCore_unfold (b fuel n : Nat) (ds : List Char) :
    Nat.toDigitsCore b (fuel + 1) n ds =
      if n / b = 0 then (n % b).digitChar :: ds
      else Nat.toDigitsCore b fuel (n / b) ((n % b).digitChar :: ds) := by
  conv_lhs => unfold Nat.toDigitsCore

theorem toDigitsCore_ne_dash (b : Nat) :
    ∀ (fuel n : Nat) (ds : List Char), (∀ c ∈ ds, c ≠ '-') →
      ∀ c ∈ Nat.toDigitsCore b fuel n ds, c ≠ '-' := by
  intro fuel
  induction fuel with
  | zero =>
      intro n ds hds c hc
      exact hds c hc
  | succ fuel ih =>
      intro n ds hds c hc
      rw [toDigitsCore_unfold] at hc
      split at hc
      · rcases List.mem_cons.mp hc with rfl | hc'
        · exact digitChar_ne_dash _
        · exact hds c hc'
      · refine ih (n / b) ((n % b).digitChar :: ds) ?_ c hc
        intro c' hc'
        rcases List.mem_cons.mp hc' with rfl | hc''
        · exact digitChar_ne_dash _
        · exact hds c' hc''

theorem digitVal_digitChar : ∀ m, m < 10 → digitVal (Nat.digitChar m) = m := by decide

theorem evalDigits_toDigitsCore :
    ∀ (fuel n : Nat) (ds : List Char), n < fuel →
      evalDigits (Nat.toDigitsCore 10 fuel n ds) = n * 10 ^ ds.length + evalDigits ds := by
  intro fuel
  induction fuel with
  | zero => intro n ds hn; omega
  | succ fuel ih =>
      intro n ds hn
      have hmod : n % 10 < 10 := Nat.mod_lt _ (by norm_num)
      have hdm := Nat.div_add_mod n 10
      rw [toDigitsCore_unfold]
      by_cases h : n / 10 = 0
      · rw [if_pos h]
        simp only [evalDigits]
        rw [digitVal_digitChar _ hmod]
        have : n % 10 = n := by omega
        rw [this]
      · rw [if_neg h]
        have hpos : 0 < n := by omega
        have hlt : n / 10 < fuel := by
          have h1 : n / 10 < n := Nat.div_lt_self hpos (by norm_num)
          omega
        rw [ih (n / 10) _ hlt]
        simp only [evalDigits, List.length_cons]
        rw [digitVal_digitChar _ hmod, pow_succ]
        conv_rhs => rw [← hdm]
        ring

theorem evalDigits_toDigits (n : Nat) : evalDigits (Nat.toDigits 10 n) = n := by
  unfold Nat.toDigits
  rw [evalDigits_toDigitsCore (n + 1) n [] (Nat.lt_succ_self n)]
  simp [evalDigits]

theorem natRepr_inj {m n : Nat} (h : Nat.repr m = Nat.repr n) : m = n := by
  have hdata : Nat.toDigits 10 m = Nat.toDigits 10 n := congrArg String.data h
  calc m = evalDigits (Nat.toDigits 10 m) := (evalDigits_toDigits m).symm
    _ = evalDigits (Nat.toDigits 10 n) := by rw [hdata]
    _ = n := evalDigits_toDigits n

theorem natRepr_ne_dash (n : Nat) : '-' ∉ (Nat.repr n).data := by
  intro hmem
  exact toDigitsCore_ne_dash 10 (n + 1) n [] (by intro c hc; cases hc) '-' hmem rfl

theorem intToString_nonneg (s : Int) (hs : 0 ≤ s) : toString s = Nat.repr s.toNat := by
  obtain ⟨m, rfl⟩ := Int.eq_ofNat_of_zero_le hs
  rfl

/-- Splitting a string at a dash whose right part has no dash is unambiguous. -/
theorem append_dash_inj :
    ∀ (l1 l2 m1 m2 : List Char), '-' ∉ m1 → '-' ∉ m2 →
      l1 ++ '-' :: m1 = l2 ++ '-' :: m2 → l1 = l2 ∧ m1 = m2 := by
  intro l1
  induction l1 with
  | nil =>
      intro l2 m1 m2 h1 _ he
      cases l2 with
      | nil =>
          refine ⟨rfl, ?_⟩
          simpa using he
      | cons c t =>
          exfalso
          simp only [List.nil_append, List.cons_append, List.cons.injEq] at he
          exact h1 (he.2 ▸ List.mem_append_right t (List.mem_cons_self '-' m2))
  | cons c t ih =>
      intro l2 m1 m2 h1 h2 he
      cases l2 with
      | nil =>
          exfalso
          simp only [List.nil_append, List.cons_append, List.cons.injEq] at he
          exact h2 (he.2.symm ▸ List.mem_append_right t (List.mem_cons_self '-' m1))
      | cons c2 t2 =>
          simp only [List.cons_append, List.cons.injEq] at he
          obtain ⟨hc, htail⟩ := he
          obtain ⟨ht, hm⟩ := ih t2 m1 m2 h1 h2 htail
          exact ⟨by rw [hc, ht], hm⟩

theorem resultKey_data (r : Result) :
    (resultKey r).data = (jsToLower (jsTrim r.studentName)).data ++ '-' :: (toString r.score).data := by
  unfold resultKey
  rw [String.data_append, String.data_append]
  rw [List.append_assoc]
  rfl

theorem intToString_ne_dash (s : Int) (hs : 0 ≤ s) : '-' ∉ (toString s).data := by
  rw [intToString_nonneg s hs]
  exact natRepr_ne_dash s.toNat

/-- For the nonnegative scores of the data model, the source dedup key (a
single string) identifies records exactly as the specification key (the
(normalized name, score) pair) does. -/
theorem resultKey_iff_pairKey (r1 r2 : Result) (h1 : 0 ≤ r1.score) (h2 : 0 ≤ r2.score) :
    resultKey r1 = resultKey r2 ↔ pairKey r1 = pairKey r2 := by
  constructor
  · intro h
    have hd := congrArg String.data h
    rw [resultKey_data, resultKey_data] at hd
    obtain ⟨hname, hscore⟩ :=
      append_dash_inj _ _ _ _ (intToString_ne_dash _ h1) (intToString_ne_dash _ h2) hd
    have hnm : jsToLower (jsTrim r1.studentName) = jsToLower (jsTrim r2.studentName) :=
      String.ext hname
    have hsc : r1.score = r2.score := by
      have hts : toString r1.score = toString r2.score := String.ext hscore
      rw [intToString_nonneg _ h1, intToString_nonneg _ h2] at hts
      have := natRepr_inj hts
      omega
    unfold pairKey
    rw [hnm, hsc]
  · intro h
    have hn : jsToLower (jsTrim r1.studentName) = jsToLower (jsTrim r2.studentName) :=
      congrArg Prod.fst h
    have hs : r1.score = r2.score := congrArg Prod.snd h
    unfold resultKey
    rw [hn, hs]

/-! ## Helper lemmas: scoring -/

theorem scoreQuiz_le_length (qs : List Question) (ans : List Int) :
    scoreQuiz qs ans ≤ qs.length := by
  unfold scoreQuiz
  calc ((List.range qs.length).filter _).length
      ≤ (List.range qs.length).length := List.length_filter_le _ _
    _ = qs.length := List.length_range _

/-- Under the correctIndex invariant, the score counts exactly the indices
that are both answered (not -1) and correct. -/
theorem scoreQuiz_unanswered (qs : List Question) (ans : List Int)
    (hinv : ∀ q ∈ qs, 0 ≤ q.correctIndex) :
    scoreQuiz qs ans =
      ((List.range qs.length).filter
        (fun i => !(ans.get? i == some (-1)) &&
          (ans.get? i == (qs.get? i).map Question.correctIndex))).length := by
  unfold scoreQuiz
  congr 1
  apply List.filter_congr
  intro i hi
  have hlt : i < qs.length := List.mem_range.mp hi
  obtain ⟨q, hq⟩ : ∃ q, qs.get? i = some q := ⟨_, List.get?_eq_get hlt⟩
  have hc : 0 ≤ q.correctIndex := hinv q (List.get?_mem hq)
  rw [hq]
  cases ha : ans.get? i with
  | none => rfl
  | some a =>
      by_cases hA : a = (-1)
      · subst hA
        rw [Bool.eq_iff_iff]
        simp only [Option.map_some', beq_iff_eq, Option.some.injEq, Bool.and_eq_true,
          Bool.not_eq_true', beq_eq_false_iff_ne]
        constructor
        · intro h; omega
        · rintro ⟨h, _⟩; exact absurd rfl h
      · rw [Bool.eq_iff_iff]
        simp only [Option.map_some', beq_iff_eq, Option.some.injEq, Bool.and_eq_true,
          Bool.not_eq_true', beq_eq_false_iff_ne]
        constructor
        · intro h; exact ⟨by simpa using hA, h⟩
        · rintro ⟨_, h⟩; exact h

theorem scoreQuiz_replicate (qs : List Question)
    (hinv : ∀ q ∈ qs, 0 ≤ q.correctIndex) :
    scoreQuiz qs (List.replicate qs.length (-1)) = 0 := by
  unfold scoreQuiz
  rw [List.length_eq_zero]
  rw [List.filter_eq_nil_iff]
  intro i hi
  have hlt : i < qs.length := List.mem_range.mp hi
  obtain ⟨q, hq⟩ : ∃ q, qs.get? i = some q := ⟨_, List.get?_eq_get hlt⟩
  have hc : 0 ≤ q.correctIndex := hinv q (List.get?_mem hq)
  have hrep : (List.replicate qs.length (-1 : Int)).get? i = some (-1) := by
    simp [List.get?_eq_get, hlt]
  rw [hq, hrep]
  simp only [Option.map_some', beq_iff_eq, Option.some.injEq]
  intro h
  omega

/-! ## Helper lemmas: session timer -/

/-- Running the interval for exactly the remaining m+1 seconds from the quiz
view ends in the auto-submission at zero. -/
theorem tickN_run (now : Int) :
    ∀ (m : Nat) (s : Session), s.view = .studentQuiz → s.timeLeft = m + 1 →
      tickN now (m + 1) s = submitQuiz now { s with timeLeft := 0 } := by
  intro m
  induction m with
  | zero =>
      intro s hv ht
      show tickN now 0 (tick now s) = _
      have h1 : tick now s = submitQuiz now { s with timeLeft := 0 } := by
        unfold tick
        rw [if_pos hv, ht]
        norm_num
      rw [h1]
      rfl
  | succ m ih =>
      intro s hv ht
      have h1 : tick now s = { s with timeLeft := m + 1 } := by
        unfold tick
        rw [if_pos hv, ht]
        norm_num
      calc tickN now (m + 1 + 1) s = tickN now (m + 1) (tick now s) := rfl
        _ = tickN now (m + 1) { s with timeLeft := m + 1 } := by rw [h1]
        _ = submitQuiz now { { s with timeLeft := m + 1 } with timeLeft := 0 } :=
          ih { s with timeLeft := m + 1 } hv rfl
        _ = submitQuiz now { s with timeLeft := 0 } := rfl

/-! ## Helper lemmas: streak -/

theorem streakDays_sorted (studentName : String) (allResults : List Result) :
    (streakDays studentName allResults).Pairwise dayDesc :=
  List.sorted_insertionSort dayDesc _

theorem streakDays_nodup (studentName : String) (allResults : List Result) :
    (streakDays studentName allResults).Nodup := by
  unfold streakDays
  have h1 := dedupFirstBy_pairwise (fun d : Int => d)
    ((allResults.filter (fun r => jsToLower r.studentName == jsToLower studentName)).map
      (fun r => midnightMs r.date)) []
  exact (List.perm_insertionSort dayDesc _).symm.nodup h1

theorem streakDays_dvd (studentName : String) (allResults : List Result) :
    ∀ x ∈ streakDays studentName allResults, msPerDay ∣ x := by
  intro x hx
  unfold streakDays at hx
  have h1 := (List.perm_insertionSort dayDesc _).mem_iff.mp hx
  have h2 := (dedupFirstBy_sublist (fun d : Int => d) _ []).subset h1
  obtain ⟨r, _, rfl⟩ := List.mem_map.mp h2
  exact ⟨Int.fdiv r.date msPerDay, rfl⟩

theorem streakLoop_eq_consecRun :
    ∀ l : List Int, l.Pairwise dayDesc → l.Nodup → (∀ x ∈ l, msPerDay ∣ x) →
      streakLoop l = 1 + consecRun l := by
  intro l
  induction l with
  | nil => intros; rfl
  | cons a t ih =>
      cases t with
      | nil => intros; rfl
      | cons b rest =>
          intro hp hnd hdvd
          have hab : b ≤ a :=
            (List.pairwise_cons.mp hp).1 b (List.mem_cons_self b rest)
          have hne : a ≠ b :=
            (List.pairwise_cons.mp hnd).1 b (List.mem_cons_self b rest)
          have hba : b < a := lt_of_le_of_ne hab (fun h => hne h.symm)
          obtain ⟨ka, hka⟩ := hdvd a (List.mem_cons_self a (b :: rest))
          obtain ⟨kb, hkb⟩ := hdvd b (List.mem_cons_of_mem a (List.mem_cons_self b rest))
          have hab' : a - b = 86400000 * (ka - kb) := by
            rw [hka, hkb]; unfold msPerDay; ring
          have hk : 1 ≤ ka - kb := by
            have h0 : 0 < 86400000 * (ka - kb) := by rw [← hab']; omega
            nlinarith [h0]
          have hdiff : (diffDaysCeil a b = 1) ↔ (a - b = msPerDay) := by
            unfold diffDaysCeil msPerDay
            omega
          have htail : streakLoop (b :: rest) = 1 + consecRun (b :: rest) :=
            ih (List.pairwise_cons.mp hp).2 (List.pairwise_cons.mp hnd).2
              (fun x hx => hdvd x (List.mem_cons_of_mem a hx))
          show (if diffDaysCeil a b = 1 then 1 + streakLoop (b :: rest) else 1)
            = 1 + (if a - b = msPerDay then 1 + consecRun (b :: rest) else 0)
          by_cases hd : diffDaysCeil a b = 1
          · rw [if_pos hd, if_pos (hdiff.mp hd), htail]
          · rw [if_neg hd, if_neg (fun h => hd (hdiff.mpr h))]

/-- Away from the falsy-name guard, calculateStreak computes exactly the
specification streak. -/
theorem calculateStreak_eq_streakSpec (studentName : String) (allResults : List Result)
    (now : Int) (hn : studentName ≠ "") :
    calculateStreak studentName allResults now = streakSpec studentName allResults now := by
  unfold calculateStreak streakSpec
  rw [if_neg hn]
  cases h : streakDays studentName allResults with
  | nil => rfl
  | cons d0 rest =>
      have hp : (d0 :: rest).Pairwise dayDesc := h ▸ streakDays_sorted studentName allResults
      have hnd : (d0 :: rest).Nodup := h ▸ streakDays_nodup studentName allResults
      have hdvd : ∀ x ∈ d0 :: rest, msPerDay ∣ x := h ▸ streakDays_dvd studentName allResults
      show (if d0 ≠ midnightMs now ∧ d0 ≠ midnightMs now - msPerDay then 0
              else streakLoop (d0 :: rest))
          = (if d0 = midnightMs now ∨ d0 = midnightMs now - msPerDay
              then 1 + consecRun (d0 :: rest) else 0)
      by_cases hcond : d0 = midnightMs now ∨ d0 = midnightMs now - msPerDay
      · rw [if_neg (by tauto), if_pos hcond]
        exact streakLoop_eq_consecRun _ hp hnd hdvd
      · rw [if_pos (by tauto), if_neg hcond]

/-! ## Helper lemmas: leaderboard membership and top-3 -/

theorem mem_of_mem_sortFilter {p : Result → Bool} {a : Result} {results : List Result}
    (h : a ∈ List.insertionSort dateLe (results.filter p)) : a ∈ results ∧ p a = true := by
  have h2 := (List.perm_insertionSort dateLe (results.filter p)).mem_iff.mp h
  exact ⟨(List.mem_filter.mp h2).1, (List.mem_filter.mp h2).2⟩

theorem getLeaderboard_mem {r : Result} {results : List Result} {quizId : String}
    (h : r ∈ getLeaderboard results quizId) : r ∈ results ∧ r.quizId = quizId := by
  unfold getLeaderboard at h
  have h1 := (List.perm_insertionSort leaderLe _).mem_iff.mp h
  have h2 := (dedupFirstBy_sublist resultKey _ []).subset h1
  obtain ⟨hmem, hq⟩ := mem_of_mem_sortFilter h2
  exact ⟨hmem, by simpa [beq_iff_eq] using hq⟩

/-- The ranking computed inside isTop3 coincides with getLeaderboard. -/
theorem top3Ranking_eq_getLeaderboard (allResults : List Result) (quizId : String) :
    top3Ranking quizId allResults = getLeaderboard allResults quizId := by
  unfold top3Ranking getLeaderboard
  apply insertionSort_scoreDesc_eq
  exact List.Pairwise.sublist (dedupFirstBy_sublist resultKey _ [])
    (List.sorted_insertionSort dateLe _)

theorem jsFindIndex_lt_iff {α : Type} (p : α → Bool) :
    ∀ (l : List α) (k : Nat),
      (∃ i, jsFindIndex p l = some i ∧ i < k) ↔ ∃ e ∈ l.take k, p e = true := by
  intro l
  induction l with
  | nil =>
      intro k
      constructor
      · rintro ⟨i, hi, -⟩; simp [jsFindIndex] at hi
      · rintro ⟨e, he, -⟩; simp at he
  | cons x xs ih =>
      intro k
      by_cases hx : p x = true
      · constructor
        · rintro ⟨i, hi, hik⟩
          rw [show jsFindIndex p (x :: xs) = some 0 by simp [jsFindIndex, hx]] at hi
          obtain rfl : (0 : Nat) = i := Option.some.inj hi
          cases k with
          | zero => omega
          | succ k => exact ⟨x, by simp [List.take_succ_cons], hx⟩
        · rintro ⟨e, he, hpe⟩
          cases k with
          | zero => simp at he
          | succ k =>
              exact ⟨0, by simp [jsFindIndex, hx], Nat.succ_pos k⟩
      · have hx' : p x = false := by simpa using hx
        constructor
        · rintro ⟨i, hi, hik⟩
          rw [show jsFindIndex p (x :: xs) = (jsFindIndex p xs).map (· + 1) by
            simp [jsFindIndex, hx']] at hi
          obtain ⟨j, hj, rfl⟩ := Option.map_eq_some'.mp hi
          cases k with
          | zero => omega
          | succ k =>
              obtain ⟨e, he, hpe⟩ := (ih k).mp ⟨j, hj, by omega⟩
              exact ⟨e, by rw [List.take_succ_cons]; exact List.mem_cons_of_mem x he, hpe⟩
        · rintro ⟨e, he, hpe⟩
          cases k with
          | zero => simp at he
          | succ k =>
              rw [List.take_succ_cons] at he
              rcases List.mem_cons.mp he with rfl | he'
              · rw [hpe] at hx'; cases hx'
              · obtain ⟨j, hj, hjk⟩ := (ih k).mpr ⟨e, he', hpe⟩
                refine ⟨j + 1, ?_, by omega⟩
                rw [show jsFindIndex p (x :: xs) = (jsFindIndex p xs).map (· + 1) by
                  simp [jsFindIndex, hx'], hj]
                rfl

theorem isTop3_iff (studentName : String) (quizId : String) (allResults : List Result) :
    isTop3 studentName quizId allResults = true ↔
      ∃ e ∈ (getLeaderboard allResults quizId).take 3,
        jsToLower e.studentName = jsToLower studentName := by
  unfold isTop3
  rw [top3Ranking_eq_getLeaderboard]
  constructor
  · intro h
    cases hj : jsFindIndex (fun r => jsToLower r.studentName == jsToLower studentName)
        (getLeaderboard allResults quizId) with
    | none => rw [hj] at h; cases h
    | some i =>
        rw [hj] at h
        have hi : i < 3 := of_decide_eq_true h
        obtain ⟨e, he, hpe⟩ := (jsFindIndex_lt_iff _ _ 3).mp ⟨i, hj, hi⟩
        exact ⟨e, he, by simpa [beq_iff_eq] using hpe⟩
  · rintro ⟨e, he, hpe⟩
    obtain ⟨i, hj, hi⟩ := (jsFindIndex_lt_iff
      (fun r => jsToLower r.studentName == jsToLower studentName) _ 3).mpr
      ⟨e, he, by simpa [beq_iff_eq] using hpe⟩
    rw [hj]
    exact decide_eq_true hi

theorem resultKey_of_pairKey {a b : Result} (h : pairKey a = pairKey b) :
    resultKey a = resultKey b := by
  unfold resultKey
  rw [show jsToLower (jsTrim a.studentName) = jsToLower (jsTrim b.studentName) from
    congrArg Prod.fst h]
  rw [show a.score = b.score from congrArg Prod.snd h]

/-! ## The claims -/

/-- C1: the score computed at finalization equals the number of question
indices whose answer matches the correctIndex; an unanswered slot (-1) never
counts as correct (the score also equals the count over indices that are
answered and correct); and 0 ≤ score ≤ total with total the question count
(score is a Nat, so 0 ≤ score holds by type). -/
theorem claim1_scoring (now : Int) (s : Session) (quiz : Quiz)
    (hq : s.activeQuiz = some quiz)
    (hinv : ∀ q ∈ quiz.questions, 0 ≤ q.correctIndex) :
    ∃ res, (submitQuiz now s).currentResult = some res
      ∧ res.score = scoreQuiz quiz.questions s.answers
      ∧ res.total = quiz.questions.length
      ∧ res.score ≤ res.total
      ∧ res.score = ((List.range quiz.questions.length).filter
          (fun i => !(s.answers.get? i == some (-1)) &&
            (s.answers.get? i == (quiz.questions.get? i).map Question.correctIndex))).length := by
  refine ⟨⟨quiz.id, s.studentName, scoreQuiz quiz.questions s.answers,
    quiz.questions.length, now⟩, ?_, rfl, rfl, scoreQuiz_le_length _ _, ?_⟩
  · simp [submitQuiz, hq]
  · exact scoreQuiz_unanswered _ _ hinv

/-- Witness for C1 at a concrete session: quiz with correctIndex [1, 0],
answers [1, -1]. -/
theorem claim1_scoring_witness :
    (sessC1.activeQuiz = some quizA ∧ ∀ q ∈ quizA.questions, 0 ≤ q.correctIndex)
    ∧ ∃ res, (submitQuiz 9 sessC1).currentResult = some res
      ∧ res.score = scoreQuiz quizA.questions sessC1.answers
      ∧ res.total = quizA.questions.length
      ∧ res.score ≤ res.total
      ∧ res.score = ((List.range quizA.questions.length).filter
          (fun i => !(sessC1.answers.get? i == some (-1)) &&
            (sessC1.answers.get? i == (quizA.questions.get? i).map Question.correctIndex))).length :=
  ⟨⟨rfl, by decide⟩, claim1_scoring 9 sessC1 quizA rfl (by decide)⟩

/-- C2: the leaderboard pipeline (restrict to the quiz, sort ascending by
timestamp, dedup keeping the earliest occurrence of each normalized-name/score
key, order by score descending with ties by ascending timestamp, ranks being
1-based positions) matches the source, for the nonnegative scores of the data
model: the source keys by the string name-dash-score, the claim by the pair. -/
theorem claim2_leaderboard (results : List Result) (quizId : String)
    (hscores : ∀ r ∈ results, 0 ≤ r.score) :
    getLeaderboard results quizId = leaderboardSpec results quizId := by
  unfold getLeaderboard leaderboardSpec
  congr 1
  refine dedupFirstBy_congr resultKey pairKey _ [] [] ?_ ?_
  · intro a ha b hb
    exact resultKey_iff_pairKey a b (hscores a (mem_of_mem_sortFilter ha).1)
      (hscores b (mem_of_mem_sortFilter hb).1)
  · intro a _
    simp

/-- Witness for C2 on a concrete result set with a duplicate key. -/
theorem claim2_leaderboard_witness :
    (∀ r ∈ [rAsha1, rAsha2, rBela], 0 ≤ r.score)
    ∧ getLeaderboard [rAsha1, rAsha2, rBela] "quiz-a"
        = leaderboardSpec [rAsha1, rAsha2, rBela] "quiz-a" :=
  ⟨by decide, claim2_leaderboard [rAsha1, rAsha2, rBela] "quiz-a" (by decide)⟩

/-- C3 counterexample: for the empty student name and a Result with an empty
name dated today, the most recent attempt day is today, so the claimed formula
gives streak 1, but the source returns 0 from its falsy-name guard. -/
theorem claim3_streak_counterexample :
    calculateStreak "" [rEmptyName] 0 = 0 ∧ streakSpec "" [rEmptyName] 0 = 1 := by
  constructor
  · rfl
  · rfl

/-- C3 amended: for every NON-EMPTY student name, the streak is 0 when the
most recent attempt day is neither today nor yesterday, and otherwise equals
1 plus the consecutive run of adjacent day pairs differing by exactly one
calendar day, with same-day attempts counted once. -/
theorem claim3_streak_amended (studentName : String) (allResults : List Result) (now : Int)
    (hn : studentName ≠ "") :
    calculateStreak studentName allResults now = streakSpec studentName allResults now :=
  calculateStreak_eq_streakSpec studentName allResults now hn

/-- Witness for amended C3: three attempts on three consecutive days. -/
theorem claim3_streak_witness :
    ("N" ≠ "")
    ∧ calculateStreak "N" [rN0, rN1, rN2] streakNow = streakSpec "N" [rN0, rN1, rN2] streakNow :=
  ⟨by decide, claim3_streak_amended "N" [rN0, rN1, rN2] streakNow (by decide)⟩

/-- C4: while in the quiz view each tick decrements the remaining time by 1;
at remaining time 1 the tick reaches 0 and immediately finalizes; and a start
with durationMinutes = 1 reaches the result view after 60 ticks with all
answers left at -1, producing a result with score 0 under the correctIndex
invariant. -/
theorem claim4_timer (now : Int) (quiz : Quiz) (s : Session)
    (hdur : quiz.durationMinutes = some 1)
    (hname : jsTrim s.studentName ≠ "")
    (hinv : ∀ q ∈ quiz.questions, 0 ≤ q.correctIndex) :
    (∀ u : Session, u.view = .studentQuiz → 1 < u.timeLeft →
        tick now u = { u with timeLeft := u.timeLeft - 1 })
    ∧ (∀ u : Session, u.view = .studentQuiz → u.timeLeft = 1 →
        tick now u = submitQuiz now { u with timeLeft := 0 })
    ∧ ∃ s2, startQuiz quiz s = .ok s2
        ∧ s2.timeLeft = 60
        ∧ (tickN now 60 s2).view = .studentResult
        ∧ (tickN now 60 s2).currentResult = some
            { quizId := quiz.id, studentName := s.studentName, score := 0,
              total := quiz.questions.length, date := now } := by
  refine ⟨?_, ?_, ?_⟩
  · intro u hv hl
    have h1 : 0 < u.timeLeft := by omega
    have h2 : ¬ (u.timeLeft ≤ 1) := by omega
    have h3 : ¬ (u.timeLeft - 1 = 0) := by omega
    simp [tick, hv, h1, h2, h3]
  · intro u hv h1
    simp [tick, hv, h1]
  · have hstart : startQuiz quiz s = .ok { s with
        activeQuiz := some quiz,
        answers := List.replicate quiz.questions.length (-1),
        timeLeft := 60,
        view := .studentQuiz } := by
      unfold startQuiz
      rw [if_neg hname, hdur]
      rfl
    refine ⟨_, hstart, rfl, ?_, ?_⟩
    · rw [tickN_run now 59 _ rfl rfl]
      rfl
    · rw [tickN_run now 59 _ rfl rfl]
      show (submitQuiz now _).currentResult = _
      simp only [submitQuiz]
      rw [scoreQuiz_replicate quiz.questions hinv]

/-- Witness for C4: the two-question quiz with durationMinutes = 1. -/
theorem claim4_timer_witness :
    (quizA.durationMinutes = some 1 ∧ jsTrim sess0.studentName ≠ ""
        ∧ ∀ q ∈ quizA.questions, 0 ≤ q.correctIndex)
    ∧ ∃ s2, startQuiz quizA sess0 = .ok s2
        ∧ s2.timeLeft = 60
        ∧ (tickN 77 60 s2).view = .studentResult
        ∧ (tickN 77 60 s2).currentResult = some
            { quizId := quizA.id, studentName := sess0.studentName, score := 0,
              total := quizA.questions.length, date := 77 } :=
  ⟨⟨rfl, by decide, by decide⟩,
    (claim4_timer 77 quizA sess0 rfl (by decide) (by decide)).2.2⟩

/-- C5 counterexample: for a quiz whose durationMinutes is present and equal
to 0, the claim demands remaining time 0 * 60 = 0, but the source, using the
JS or-default on a falsy value, sets 10 * 60 = 600. -/
theorem claim5_counterexample :
    (startQuiz quizZeroDur sess0).map Session.timeLeft = .ok 600 ∧ (600 : Nat) ≠ 0 * 60 := by
  constructor
  · rfl
  · decide

/-- C5 amended: a successful start allocates an all -1 answer set of the
question count, transitions to the quiz view, and sets remaining time to
(durationMinutes or-default 10) * 60 seconds, where the 10-minute default
applies when durationMinutes is absent OR when it equals 0. -/
theorem claim5_start_amended (quiz : Quiz) (s : Session)
    (hname : jsTrim s.studentName ≠ "") :
    startQuiz quiz s = .ok { s with
        activeQuiz := some quiz,
        answers := List.replicate quiz.questions.length (-1),
        timeLeft := jsOrDefault quiz.durationMinutes 10 * 60,
        view := .studentQuiz }
    ∧ jsOrDefault none 10 = 10
    ∧ jsOrDefault (some 0) 10 = 10
    ∧ ∀ d : Nat, d ≠ 0 → jsOrDefault (some d) 10 = d := by
  refine ⟨?_, rfl, rfl, ?_⟩
  · unfold startQuiz
    rw [if_neg hname]
  · intro d hd
    show (if d = 0 then 10 else d) = d
    rw [if_neg hd]

/-- Witness for amended C5 at the concrete quiz with durationMinutes = 1. -/
theorem claim5_start_witness :
    (jsTrim sess0.studentName ≠ "")
    ∧ (startQuiz quizA sess0 = .ok { sess0 with
          activeQuiz := some quizA,
          answers := List.replicate quizA.questions.length (-1),
          timeLeft := jsOrDefault quizA.durationMinutes 10 * 60,
          view := .studentQuiz }
        ∧ jsOrDefault none 10 = 10
        ∧ jsOrDefault (some 0) 10 = 10
        ∧ ∀ d : Nat, d ≠ 0 → jsOrDefault (some d) 10 = d) :=
  ⟨by decide, claim5_start_amended quizA sess0 (by decide)⟩

/-- C6: a start with an empty or whitespace-only student name fails with the
validation error and does not produce any started session state. -/
theorem claim6_validation (quiz : Quiz) (s : Session)
    (hname : jsTrim s.studentName = "") :
    startQuiz quiz s = .error (.validationError "Please enter your name first.") := by
  unfold startQuiz
  rw [if_pos hname]

/-- Witness for C6 at the whitespace-only name. -/
theorem claim6_validation_witness :
    jsTrim sessWs.studentName = ""
    ∧ startQuiz quizA sessWs = .error (.validationError "Please enter your name first.") :=
  ⟨by decide, claim6_validation quizA sessWs (by decide)⟩

/-- C7 counterexample: the student "alice" has an attempt recorded under the
name " alice" (leading space) that is alone at rank 1 of its leaderboard, so
the claimed trimmed-name matching makes the badge true, but the source
matches without trimming and reports false. -/
theorem claim7_counterexample :
    hasAnyTop3 "alice" [rSpacedAlice] = false
    ∧ top3BadgeSpecTrim "alice" [rSpacedAlice] = true := by
  constructor
  · rfl
  · rfl

/-- C7 amended: the top-3 badge is true iff some quiz the student attempted
(matched by LOWERCASED, NOT TRIMMED, name) has an entry of the student,
matched the same way, within the first 3 ranks of its leaderboard. -/
theorem claim7_top3_amended (studentName : String) (allResults : List Result) :
    hasAnyTop3 studentName allResults = true ↔
      ∃ r ∈ allResults, jsToLower r.studentName = jsToLower studentName ∧
        ∃ e ∈ (getLeaderboard allResults r.quizId).take 3,
          jsToLower e.studentName = jsToLower studentName := by
  unfold hasAnyTop3
  rw [List.any_eq_true]
  constructor
  · rintro ⟨r, hr, hb⟩
    rw [Bool.and_eq_true] at hb
    exact ⟨r, hr, by simpa [beq_iff_eq] using hb.1, (isTop3_iff _ _ _).mp hb.2⟩
  · rintro ⟨r, hr, hn, he⟩
    refine ⟨r, hr, ?_⟩
    rw [Bool.and_eq_true]
    exact ⟨by simpa [beq_iff_eq] using hn, (isTop3_iff _ _ _).mpr he⟩

/-- C8: in the leaderboard output every two entries have distinct
normalized-name/score keys, every entry comes from the input restricted to the
quiz, and every entry is no later than any input record of the same quiz and
the same key: only the earliest duplicate survives. -/
theorem claim8_dedup (results : List Result) (quizId : String) :
    (getLeaderboard results quizId).Pairwise (fun a b => pairKey a ≠ pairKey b)
    ∧ ∀ r ∈ getLeaderboard results quizId,
        (r ∈ results ∧ r.quizId = quizId)
        ∧ ∀ rp ∈ results, rp.quizId = quizId → pairKey rp = pairKey r →
            r.date ≤ rp.date := by
  constructor
  · have h1 := dedupFirstBy_pairwise resultKey
      (List.insertionSort dateLe (results.filter (fun r => r.quizId == quizId))) []
    have h2 := h1.imp (fun {a b} hne hpk => hne (resultKey_of_pairKey hpk))
    exact ((List.perm_insertionSort leaderLe _).pairwise_iff
      (fun {x y} h e => h e.symm)).mpr h2
  · intro r hr
    refine ⟨getLeaderboard_mem hr, ?_⟩
    intro rp hrp hq hpk
    unfold getLeaderboard at hr
    have hrU := (List.perm_insertionSort leaderLe _).mem_iff.mp hr
    have hrpS : rp ∈ List.insertionSort dateLe
        (results.filter (fun x => x.quizId == quizId)) :=
      (List.perm_insertionSort dateLe _).mem_iff.mpr
        (List.mem_filter.mpr ⟨hrp, by simp [beq_iff_eq, hq]⟩)
    exact dedupFirstBy_earliest resultKey _ [] (List.sorted_insertionSort dateLe _)
      r hrU rp hrpS (resultKey_of_pairKey hpk)

/-- C9: the perfect-score badge is true iff some result of the student,
matched case-insensitively, has score equal to total; in particular the
results with score/total 3/5 and 4/4 yield the badge. -/
theorem claim9_perfect :
    (∀ (studentName : String) (allResults : List Result),
      hasGrammarMaster studentName allResults = true ↔
        ∃ r ∈ allResults, jsToLower r.studentName = jsToLower studentName
          ∧ r.score = r.total)
    ∧ hasGrammarMaster "priya"
        [⟨"r1", "q1", "Priya", 3, 5, 100⟩, ⟨"r2", "q2", "priya", 4, 4, 200⟩] = true := by
  constructor
  · intro name rs
    unfold hasGrammarMaster
    rw [List.any_eq_true]
    constructor
    · rintro ⟨r, hr, hb⟩
      rw [Bool.and_eq_true] at hb
      exact ⟨r, hr, by simpa [beq_iff_eq] using hb.1, by simpa [beq_iff_eq] using hb.2⟩
    · rintro ⟨r, hr, h1, h2⟩
      refine ⟨r, hr, ?_⟩
      rw [Bool.and_eq_true]
      exact ⟨by simpa [beq_iff_eq] using h1, by simpa [beq_iff_eq] using h2⟩
  · rfl

/-- C10: the ranked sequence computed inside isTop3 (stable sort by score
descending over the date-ascending deduplicated list) is element-for-element
the getLeaderboard output (score descending, ties by ascending date). -/
theorem claim10_refinement (allResults : List Result) (quizId : String) :
    top3Ranking quizId allResults = getLeaderboard allResults quizId :=
  top3Ranking_eq_getLeaderboard allResults quizId
